import Mathlib

/-!
Verification of the sexprs repository (canonical S-expressions in Go).

This file embeds the data model and the operations of the package
(Atom, List, Pack, PackedLen, Equal, the advanced renderer, and the
recursive-descent reader behind Parse and Read) as executable Lean
definitions, translated from the Go source, and proves or refutes the
frozen claims about them.

Bytes are modelled as natural numbers (every byte that matters is
compared against explicit ASCII constants, so no modular arithmetic is
needed).  Go byte slices become lists of naturals; a nil slice versus a
present slice is modelled with Option where the source branches on
nilness (the display hint).
-/

namespace Sexprs

/-! ### Character class tables, from the var block of the source. -/

/-- The bytes of the string abcdefghijklmnopqrstuvwxyz. -/
def lowerCase : List Nat := (List.range 26).map (fun i => 97 + i)

/-- The bytes of the string ABCDEFGHIJKLMNOPQRSTUVWXYZ. -/
def upperCase : List Nat := (List.range 26).map (fun i => 65 + i)

/-- The bytes of the string 0123456789. -/
def decimalDigit : List Nat := (List.range 10).map (fun i => 48 + i)

/-- alpha = append(lowerCase, upperCase...). -/
def alpha : List Nat := lowerCase ++ upperCase

/-- hexadecimalDigit = append(decimalDigit, abcdefABCDEF...). -/
def hexadecimalDigit : List Nat :=
  decimalDigit ++ [97, 98, 99, 100, 101, 102, 65, 66, 67, 68, 69, 70]

/-- The bytes of the string 01234567. -/
def octalDigit : List Nat := (List.range 8).map (fun i => 48 + i)

/-- simplePunc holds the bytes of -./_:*+= . -/
def simplePunc : List Nat := [45, 46, 47, 95, 58, 42, 43, 61]

/-- whitespaceChar holds space, tab, carriage return and newline. -/
def whitespaceChar : List Nat := [32, 9, 13, 10]

/-- tokenChar = append(alpha, append(decimalDigit, simplePunc...)...). -/
def tokenChar : List Nat := alpha ++ (decimalDigit ++ simplePunc)

/-- stringChar = append(tokenChar, append(hexadecimalDigit, quote pipe hash)...). -/
def stringChar : List Nat := tokenChar ++ (hexadecimalDigit ++ [34, 124, 35])

/-- stringEncChar adds backspace, tab, vertical tab, newline, form feed,
carriage return, double quote, single quote, backslash and space. -/
def stringEncChar : List Nat := stringChar ++ [8, 9, 11, 10, 12, 13, 34, 39, 92, 32]

/-- Membership test mirroring bytes.IndexByte(table, c) > -1. -/
def inTable (table : List Nat) (c : Nat) : Bool := table.contains c

/-! ### Errors.

Each constructor stands for one distinct error value produced by the
source (io.EOF, the fmt.Errorf and errors.New messages, and wrapped
errors from the errors package, which are never equal to io.EOF).
The fuelOut constructor is a model artifact: the Go reader can loop
forever on some malformed inputs, and the model returns fuelOut where
Go would not return at all. -/
inductive GoErr where
  | eof
  | fuelOut
  | errTransportRead
  | errBase64Corrupt
  | errTransportDecode
  | errListRead
  | errUnread
  | errInvalidUnreadByte
  | errHintEnd
  | errCantReadSimpleString
  | errParseInt
  | errHexRead
  | errHexDecode
  | errHexLength
  | errBase64Read
  | errLengthDelimHex
  | errLengthDelimBase64
  | errByteCount
  | errExpectedInteger
  | errUnterminatedString
  | errUnrecognisedEscape
  | errExpectedHexDigit
  | errExpectedOctalDigit
  | errLengthMismatch
  deriving DecidableEq

/-! ### The buffered reader.

A bufio.Reader over a fixed byte buffer is modelled by the bytes already
consumed (most recent first), the bytes still to come, and whether the
lastByte field of bufio.Reader is set (nonnegative), which governs
UnreadByte.  ReadByte at end of input fails and leaves the state alone;
UnreadByte after such a failure steps the cursor back over the previous
successfully read byte, exactly as bufio does. -/
structure Reader where
  past : List Nat
  future : List Nat
  lastValid : Bool
  deriving DecidableEq

/-- bufio ReadByte: take one byte or fail with io.EOF. -/
def readByte (r : Reader) : Option Nat × Reader :=
  match r.future with
  | [] => (none, r)
  | b :: rest => (some b, ⟨b :: r.past, rest, true⟩)

/-- bufio UnreadByte: steps the cursor back one byte when the last
operation recorded a byte; otherwise fails with ErrInvalidUnreadByte. -/
def unreadByte (r : Reader) : Option Reader :=
  if r.lastValid then
    match r.past with
    | b :: p => some ⟨p, b :: r.future, false⟩
    | [] => none
  else none

/-- bufio ReadBytes(delim): collect bytes up to and including delim;
at end of input return everything read together with io.EOF. -/
def readBytesAcc (delim : Nat) (col : List Nat) (past : List Nat) :
    List Nat → Bool → (List Nat × Option GoErr) × Reader
  | [], lv => ((col, some GoErr.eof), ⟨past, [], if col.isEmpty then lv else true⟩)
  | c :: rest, lv =>
    if c = delim then ((col ++ [c], none), ⟨c :: past, rest, true⟩)
    else readBytesAcc delim (col ++ [c]) (c :: past) rest lv

def readBytesUntil (delim : Nat) (r : Reader) : (List Nat × Option GoErr) × Reader :=
  readBytesAcc delim [] r.past r.future r.lastValid

/-! ### strconv helpers. -/

/-- Value of one ASCII digit in bases up to 16 (0-9, a-f, A-F); other
bytes get a value of 255, larger than any base in use. -/
def digVal (c : Nat) : Nat :=
  if 48 ≤ c ∧ c ≤ 57 then c - 48
  else if 97 ≤ c ∧ c ≤ 102 then c - 87
  else if 65 ≤ c ∧ c ≤ 70 then c - 55
  else 255

/-- Numeric value of a digit string in the given base. -/
def digitsVal (base : Nat) (s : List Nat) : Nat :=
  s.foldl (fun a c => a * base + digVal c) 0

/-- strconv.ParseInt on a sign-free digit string in the given base with
the given maximum value (bitSize 32 gives 2147483647, bitSize 8 gives
127).  Returns none where Go returns a non-nil error (empty input, a
byte that is not a digit of the base, or a value out of range). -/
def parseIntChecked (base maxVal : Nat) (s : List Nat) : Option Nat :=
  if s ≠ [] ∧ s.all (fun c => digVal c < base) then
    if digitsVal base s ≤ maxVal then some (digitsVal base s) else none
  else none

/-- strconv.Itoa via an explicit digit-count bound so that the
definition is structural (the bound never runs out for fuel > digits). -/
def itoaAux : Nat → Nat → List Nat
  | 0, _ => []
  | fuel + 1, n =>
    if n < 10 then [48 + n] else itoaAux fuel (n / 10) ++ [48 + n % 10]

/-- strconv.Itoa for a nonnegative int. -/
def itoa (n : Nat) : List Nat := itoaAux (n + 1) n

/-! ### The data model: Sexp, List and Atom.

The Go interface with its two implementations becomes a closed sum.
An Atom is a byte string with an optional display hint; the hint is an
Option because the source distinguishes a nil slice from a present one
in its conditionals (though never in a way observable through Pack or
Equal).  A Go List is a slice of Sexp. -/
inductive Sexp where
  | atom (displayHint : Option (List Nat)) (value : List Nat)
  | list (elems : List Sexp)

/-- len(a.DisplayHint), where len of a nil slice is 0. -/
def hintBytes : Option (List Nat) → List Nat
  | none => []
  | some h => h

/-- The guard a.DisplayHint != nil && len(a.DisplayHint) > 0 used by
PackBuffer, PackedLen and StringBuffer. -/
def hintPresent : Option (List Nat) → Bool
  | none => false
  | some h => !h.isEmpty

mutual
/-- PackBuffer: for an Atom the optional bracketed display hint, then
the decimal length, a colon and the value bytes; for a List an open
parenthesis, each element packed in order, a close parenthesis. -/
def Sexp.pack : Sexp → List Nat
  | .atom h v =>
    (if hintPresent h then
       91 :: (itoa (hintBytes h).length ++ [58] ++ hintBytes h ++ [93])
     else [])
      ++ itoa v.length ++ [58] ++ v
  | .list l => 40 :: packSeq l ++ [41]

/-- The loop body of List.PackBuffer. -/
def packSeq : List Sexp → List Nat
  | [] => []
  | e :: es => e.pack ++ packSeq es
end

mutual
/-- PackedLen, exactly as written in the source: note that the length
of the decimal rendering added for the value part is computed from
len(a.DisplayHint), not len(a.Value). -/
def Sexp.packedLen : Sexp → Nat
  | .atom h v =>
    (if hintPresent h then
       3 + (itoa (hintBytes h).length).length + (hintBytes h).length
     else 0)
      + (itoa (hintBytes h).length).length + 1 + v.length
  | .list l => 2 + packedLenSeq l

def packedLenSeq : List Sexp → Nat
  | [] => 0
  | e :: es => e.packedLen + packedLenSeq es
end

mutual
/-- Equal: atoms compare display hint and value with bytes.Equal (which
identifies nil with the empty slice); lists compare length and then
elements in order; an atom is never equal to a list. -/
def Sexp.equal : Sexp → Sexp → Bool
  | .atom h1 v1, b =>
    match b with
    | .atom h2 v2 => (hintBytes h1 == hintBytes h2) && (v1 == v2)
    | .list _ => false
  | .list l1, b =>
    match b with
    | .atom _ _ => false
    | .list l2 => if l1.length ≠ l2.length then false else equalSeq l1 l2

def equalSeq : List Sexp → List Sexp → Bool
  | [], [] => true
  | a :: as, b :: bs => a.equal b && equalSeq as bs
  | _, _ => false
end

mutual
/-- The normal form of a tree under Equal: a present-but-empty display
hint is identified with an absent one.  Parsing the canonical packing
of v yields exactly norm v. -/
def Sexp.norm : Sexp → Sexp
  | .atom h v => .atom (if hintPresent h then some (hintBytes h) else none) v
  | .list l => .list (normSeq l)

def normSeq : List Sexp → List Sexp
  | [] => []
  | e :: es => e.norm :: normSeq es
end

mutual
/-- Size measure used for induction over trees. -/
def Sexp.size : Sexp → Nat
  | .atom _ _ => 1
  | .list l => 1 + sizeSeq l

def sizeSeq : List Sexp → Nat
  | [] => 0
  | e :: es => e.size + sizeSeq es
end

/-- MaxInt32, the largest length accepted by the calls
strconv.ParseInt(string(acc), 10, 32) inside the reader. -/
def maxInt32 : Nat := 2147483647

mutual
/-- Every atom value and display hint of the tree is short enough for
its decimal length to be parsed back with bitSize 32. -/
def Sexp.bounded : Sexp → Bool
  | .atom h v => decide (v.length ≤ maxInt32) && decide ((hintBytes h).length ≤ maxInt32)
  | .list l => boundedSeq l

def boundedSeq : List Sexp → Bool
  | [] => true
  | e :: es => e.bounded && boundedSeq es
end

mutual
/-- Enough fuel for the fueled reader of this file to finish parsing
the canonical packing of the tree (one unit per recursive call of the
reader). -/
def Sexp.fuelNeed : Sexp → Nat
  | .atom _ _ => 1
  | .list l => 1 + fuelNeedSeq l

def fuelNeedSeq : List Sexp → Nat
  | [] => 1
  | e :: es => 1 + max e.fuelNeed (fuelNeedSeq es)
end

/-! ### encoding/base64 (StdEncoding) and encoding/hex. -/

/-- Index of a byte in the standard base64 alphabet. -/
def b64Val (c : Nat) : Option Nat :=
  if 65 ≤ c ∧ c ≤ 90 then some (c - 65)
  else if 97 ≤ c ∧ c ≤ 122 then some (c - 97 + 26)
  else if 48 ≤ c ∧ c ≤ 57 then some (c - 48 + 52)
  else if c = 43 then some 62
  else if c = 47 then some 63
  else none

/-- base64.StdEncoding.Decode on whitespace-free input, returning the
decoded bytes, or none where Go reports a CorruptInputError (bad
alphabet byte, bad padding, or a trailing group that is not 4 bytes).
Go also returns the bytes decoded before the error; no caller of this
model ever looks at them when the error is non-nil. -/
def base64Decode : List Nat → Option (List Nat)
  | [] => some []
  | c1 :: c2 :: c3 :: c4 :: rest =>
    match b64Val c1, b64Val c2 with
    | some v1, some v2 =>
      if c3 = 61 then
        if c4 = 61 ∧ rest = [] then some [v1 * 4 + v2 / 16] else none
      else
        match b64Val c3 with
        | some v3 =>
          if c4 = 61 then
            if rest = [] then some [v1 * 4 + v2 / 16, v2 % 16 * 16 + v3 / 4]
            else none
          else
            match b64Val c4 with
            | some v4 =>
              match base64Decode rest with
              | some d =>
                some ([v1 * 4 + v2 / 16, v2 % 16 * 16 + v3 / 4, v3 % 4 * 64 + v4] ++ d)
              | none => none
            | none => none
        | none => none
    | _, _ => none
  | _ => none

/-- The standard base64 alphabet as a function. -/
def b64Alpha (v : Nat) : Nat :=
  if v < 26 then 65 + v
  else if v < 52 then 97 + (v - 26)
  else if v < 62 then 48 + (v - 52)
  else if v = 62 then 43
  else 47

/-- base64.StdEncoding.EncodeToString. -/
def base64Encode : List Nat → List Nat
  | [] => []
  | [b1] =>
    [b64Alpha (b1 / 4), b64Alpha (b1 % 4 * 16), 61, 61]
  | [b1, b2] =>
    [b64Alpha (b1 / 4), b64Alpha (b1 % 4 * 16 + b2 / 16), b64Alpha (b2 % 16 * 4), 61]
  | b1 :: b2 :: b3 :: rest =>
    [b64Alpha (b1 / 4), b64Alpha (b1 % 4 * 16 + b2 / 16),
     b64Alpha (b2 % 16 * 4 + b3 / 64), b64Alpha (b3 % 64)] ++ base64Encode rest

/-- Value of one hex nibble, or none for a byte outside 0-9a-fA-F. -/
def hexNibble (c : Nat) : Option Nat :=
  if 48 ≤ c ∧ c ≤ 57 then some (c - 48)
  else if 97 ≤ c ∧ c ≤ 102 then some (c - 87)
  else if 65 ≤ c ∧ c ≤ 70 then some (c - 55)
  else none

/-- hex.Decode: decode pairs of nibbles; a bad nibble gives an
InvalidByteError and an odd count gives ErrLength.  Go also returns the
bytes decoded before the error; no caller of this model looks at the
bytes when the error is non-nil, so they are dropped here. -/
def hexDecode : List Nat → List Nat × Option GoErr
  | [] => ([], none)
  | [_] => ([], some GoErr.errHexLength)
  | c1 :: c2 :: rest =>
    match hexNibble c1, hexNibble c2 with
    | some v1, some v2 =>
      match hexDecode rest with
      | (d, none) => ((v1 * 16 + v2) :: d, none)
      | (_, some e) => ([], some e)
    | _, _ => ([], some GoErr.errHexDecode)

/-! ### The advanced renderer: writeString and StringBuffer.

The Go writeString walks the bytes with an index, keeping a working
copy acc (one byte written per outer iteration), switching from token
encoding to quoted encoding on the first byte outside tokenChar, and
falling back to base64 when a byte outside stringEncChar appears.
Slices are modelled by value; for the executions relied on below the
observable results agree with the aliasing semantics of Go slices.
Note the backspace arm of the inner loop: the source assigns the
escaped bytes to acc instead of strAcc, so the escape never reaches
the quoted output. -/

inductive WEnc where
  | tokenEnc
  | quotedEnc
  | base64Enc
  deriving DecidableEq

/-- The inner loop of writeString (for j := i; ...), building the
quoted rendering strAcc; returns false when it switched to base64 and
broke out.  The pair carries (strAcc, acc). -/
def wsInner (strAcc acc : List Nat) : List Nat → Bool × List Nat × List Nat
  | [] => (true, strAcc, acc)
  | c :: rest =>
    if inTable stringEncChar c = false then (false, strAcc, acc)
    else if c = 8 then wsInner strAcc (strAcc ++ [92, 98]) rest
    else if c = 9 then wsInner (strAcc ++ [92, 116]) acc rest
    else if c = 11 then wsInner (strAcc ++ [92, 118]) acc rest
    else if c = 10 then wsInner (strAcc ++ [92, 110]) acc rest
    else if c = 12 then wsInner (strAcc ++ [92, 102]) acc rest
    else if c = 34 then wsInner (strAcc ++ [92, 34]) acc rest
    else if c = 39 then wsInner (strAcc ++ [39]) acc rest
    else if c = 92 then wsInner (strAcc ++ [92, 92]) acc rest
    else if c = 13 then wsInner (strAcc ++ [92, 114]) acc rest
    else wsInner (strAcc ++ [c]) acc rest

/-- The outer loop of writeString over the remaining bytes, with i the
current index into the original string.  List.set past the end of acc
is where Go would panic on an index out of range; that point is not
reachable from the executions used below. -/
def wsOuter (enc : WEnc) (acc : List Nat) (i : Nat) : List Nat → List Nat
  | [] =>
    match enc with
    | .base64Enc => 124 :: base64Encode acc ++ [124]
    | .tokenEnc => acc
    | .quotedEnc => []
  | c :: rest =>
    let acc1 := acc.set i c
    if inTable tokenChar c then wsOuter enc acc1 (i + 1) rest
    else if enc = .tokenEnc ∧ inTable stringEncChar c then
      match wsInner (acc1.take i) acc1 (c :: rest) with
      | (true, strAcc, _) => 34 :: strAcc ++ [34]
      | (false, _, acc2) => wsOuter .base64Enc acc2 (i + 1) rest
    else wsOuter .base64Enc acc1 (i + 1) rest

/-- writeString from the source: render a byte string in the most
legible of token, quoted or base64 encoding. -/
def writeString (a : List Nat) : List Nat :=
  wsOuter .tokenEnc (List.replicate a.length 0) 0 a

mutual
/-- StringBuffer: the advanced rendering.  An atom writes its display
hint in brackets when present, then its value (an empty value as two
double quotes); a list writes its elements separated by single spaces
inside parentheses. -/
def Sexp.stringBuf : Sexp → List Nat
  | .atom h v =>
    (if hintPresent h then 91 :: writeString (hintBytes h) ++ [93] else [])
      ++ (if v.isEmpty then [34, 34] else writeString v)
  | .list l => 40 :: stringSeq l ++ [41]

/-- The loop of List.StringBuffer, writing a space after every element
except the last. -/
def stringSeq : List Sexp → List Nat
  | [] => []
  | [e] => e.stringBuf
  | e :: es => e.stringBuf ++ [32] ++ stringSeq es
end

/-! ### The reader.

Read, and the list loop inside it, are given explicit fuel, one unit
per recursive call; Go recursion is unbounded (and genuinely fails to
terminate on some malformed inputs, where this model returns fuelOut).
All other loops consume input and are structural. -/

/-- readHex: read up to a hash, strip whitespace, hex-decode. -/
def readHexFrom (past : List Nat) (future : List Nat) :
    (List Nat × Option GoErr) × Reader :=
  match readBytesAcc 35 [] past future true with
  | ((_, some _), r1) => (([], some GoErr.errHexRead), r1)
  | ((b, none), r1) =>
    let acc := b.dropLast.filter (fun c => !inTable whitespaceChar c)
    (hexDecode acc, r1)

/-- readBase64: read up to a pipe, strip whitespace, base64-decode. -/
def readBase64From (past : List Nat) (future : List Nat) :
    (List Nat × Option GoErr) × Reader :=
  match readBytesAcc 124 [] past future true with
  | ((_, some _), r1) => (([], some GoErr.errBase64Read), r1)
  | ((b, none), r1) =>
    let acc := b.dropLast.filter (fun c => !inTable whitespaceChar c)
    match base64Decode acc with
    | some d => ((d, none), r1)
    | none => (([], some GoErr.errBase64Corrupt), r1)

/-- The digit-gathering loop of readLengthDelimited, together with the
three terminator branches.  On a colon the declared number of bytes is
read verbatim (returning the partial bytes with io.EOF when the input
runs out first); on a hash or pipe the hex or base64 form is read and
its decoded length checked against the declared length. -/
def lengthLoop (acc : List Nat) (past : List Nat) :
    List Nat → Bool → (List Nat × Option GoErr) × Reader
  | [], lv => (([], some GoErr.eof), ⟨past, [], lv⟩)
  | c :: rest, _lv =>
    if inTable decimalDigit c then lengthLoop (acc ++ [c]) (c :: past) rest true
    else if c = 58 then
      match parseIntChecked 10 maxInt32 acc with
      | none => (([], some GoErr.errParseInt), ⟨c :: past, rest, true⟩)
      | some len =>
        if len ≤ rest.length then
          ((rest.take len, none), ⟨(rest.take len).reverse ++ c :: past, rest.drop len, true⟩)
        else
          ((rest, some GoErr.eof), ⟨rest.reverse ++ c :: past, [], true⟩)
    else if c = 35 then
      match parseIntChecked 10 maxInt32 acc with
      | none => (([], some GoErr.errParseInt), ⟨c :: past, rest, true⟩)
      | some len =>
        match readHexFrom (c :: past) rest with
        | ((b, none), r1) =>
          if b.length ≠ len then (([], some GoErr.errByteCount), r1) else ((b, none), r1)
        | ((_, some _), r1) => (([], some GoErr.errLengthDelimHex), r1)
    else if c = 124 then
      match parseIntChecked 10 maxInt32 acc with
      | none => (([], some GoErr.errParseInt), ⟨c :: past, rest, true⟩)
      | some len =>
        match readBase64From (c :: past) rest with
        | ((b, none), r1) =>
          if b.length ≠ len then (([], some GoErr.errByteCount), r1) else ((b, none), r1)
        | ((_, some _), r1) => (([], some GoErr.errLengthDelimBase64), r1)
    else (([], some GoErr.errExpectedInteger), ⟨c :: past, rest, true⟩)

def readLengthDelimited (first : Nat) (r : Reader) : (List Nat × Option GoErr) × Reader :=
  lengthLoop [first] r.past r.future r.lastValid

/-- The states of the quoted-string escape machine. -/
inductive QState where
  | inQuote
  | inEscape
  | inNewlineEscape
  | inReturnEscape
  | inHex1
  | inHex2
  | inOctal2
  | inOctal3
  deriving DecidableEq

/-- The loop of readQuotedString.  The triple e0 e1 e2 is the escape
scratch array (made 3 bytes long, zero-initialised).  Two slips of the
source are preserved exactly: the inEscape octal arm assigns inOctal2
to the state but the assignment after the conditional overwrites it
with inQuote, and the inHex2 arm stores the second digit in escape[2]
while parsing escape[:2]. -/
def quotedLoop (len : Int) (acc : List Nat) (e0 e1 e2 : Nat) (state : QState)
    (past : List Nat) : List Nat → Bool → (List Nat × Option GoErr) × Reader
  | [], lv => (([], some GoErr.errUnterminatedString), ⟨past, [], lv⟩)
  | c :: rest, _lv =>
    match state with
    | .inQuote =>
      if c = 34 then
        if len > 0 ∧ (acc.length : Int) ≠ len then
          (([], some GoErr.errLengthMismatch), ⟨c :: past, rest, true⟩)
        else ((acc, none), ⟨c :: past, rest, true⟩)
      else if c = 92 then quotedLoop len acc e0 e1 e2 .inEscape (c :: past) rest true
      else quotedLoop len (acc ++ [c]) e0 e1 e2 .inQuote (c :: past) rest true
    | .inEscape =>
      if c = 98 then quotedLoop len (acc ++ [8]) e0 e1 e2 .inQuote (c :: past) rest true
      else if c = 116 then quotedLoop len (acc ++ [9]) e0 e1 e2 .inQuote (c :: past) rest true
      else if c = 118 then quotedLoop len (acc ++ [11]) e0 e1 e2 .inQuote (c :: past) rest true
      else if c = 110 then quotedLoop len (acc ++ [10]) e0 e1 e2 .inQuote (c :: past) rest true
      else if c = 102 then quotedLoop len (acc ++ [12]) e0 e1 e2 .inQuote (c :: past) rest true
      else if c = 114 then quotedLoop len (acc ++ [13]) e0 e1 e2 .inQuote (c :: past) rest true
      else if c = 34 then quotedLoop len (acc ++ [34]) e0 e1 e2 .inQuote (c :: past) rest true
      else if c = 39 then quotedLoop len (acc ++ [39]) e0 e1 e2 .inQuote (c :: past) rest true
      else if c = 92 then quotedLoop len (acc ++ [92]) e0 e1 e2 .inQuote (c :: past) rest true
      else if c = 10 then quotedLoop len acc e0 e1 e2 .inNewlineEscape (c :: past) rest true
      else if c = 13 then quotedLoop len acc e0 e1 e2 .inReturnEscape (c :: past) rest true
      else if c = 120 then quotedLoop len acc e0 e1 e2 .inHex1 (c :: past) rest true
      else if inTable octalDigit c then
        quotedLoop len acc c e1 e2 .inQuote (c :: past) rest true
      else (([], some GoErr.errUnrecognisedEscape), ⟨c :: past, rest, true⟩)
    | .inNewlineEscape =>
      if c = 13 then quotedLoop len acc e0 e1 e2 .inQuote (c :: past) rest true
      else if c = 34 then
        if len > 0 ∧ (acc.length : Int) ≠ len then
          (([], some GoErr.errLengthMismatch), ⟨c :: past, rest, true⟩)
        else ((acc, none), ⟨c :: past, rest, true⟩)
      else quotedLoop len (acc ++ [c]) e0 e1 e2 .inQuote (c :: past) rest true
    | .inReturnEscape =>
      if c = 10 then quotedLoop len acc e0 e1 e2 .inQuote (c :: past) rest true
      else if c = 34 then
        if len > 0 ∧ (acc.length : Int) ≠ len then
          (([], some GoErr.errLengthMismatch), ⟨c :: past, rest, true⟩)
        else ((acc, none), ⟨c :: past, rest, true⟩)
      else quotedLoop len (acc ++ [c]) e0 e1 e2 .inQuote (c :: past) rest true
    | .inHex1 =>
      if inTable hexadecimalDigit c then
        quotedLoop len acc c e1 e2 .inHex2 (c :: past) rest true
      else (([], some GoErr.errExpectedHexDigit), ⟨c :: past, rest, true⟩)
    | .inHex2 =>
      if inTable hexadecimalDigit c then
        match parseIntChecked 16 127 [e0, e1] with
        | some num => quotedLoop len (acc ++ [num]) e0 e1 c .inQuote (c :: past) rest true
        | none => (([], some GoErr.errParseInt), ⟨c :: past, rest, true⟩)
      else (([], some GoErr.errExpectedHexDigit), ⟨c :: past, rest, true⟩)
    | .inOctal2 =>
      if inTable octalDigit c then
        quotedLoop len acc e0 c e2 .inOctal3 (c :: past) rest true
      else (([], some GoErr.errExpectedOctalDigit), ⟨c :: past, rest, true⟩)
    | .inOctal3 =>
      if inTable octalDigit c then
        match parseIntChecked 8 127 [e0, e1] with
        | some num => quotedLoop len (acc ++ [num]) e0 e1 c .inQuote (c :: past) rest true
        | none => (([], some GoErr.errParseInt), ⟨c :: past, rest, true⟩)
      else (([], some GoErr.errExpectedOctalDigit), ⟨c :: past, rest, true⟩)

def readQuotedString (len : Int) (r : Reader) : (List Nat × Option GoErr) × Reader :=
  quotedLoop len [] 0 0 0 .inQuote r.past r.future r.lastValid

/-- The token loop of readSimpleString.  A byte outside tokenChar (or
a failed ReadByte, which leaves c as the zero byte) ends the token by
unreading; at end of input the unread steps back over the previous
byte, which therefore reappears in the unconsumed remainder. -/
def tokenLoop (b : List Nat) (past : List Nat) :
    List Nat → Bool → (List Nat × Option GoErr) × Reader
  | [], lv =>
    match unreadByte ⟨past, [], lv⟩ with
    | some r2 => ((b, none), r2)
    | none => (([], some GoErr.errInvalidUnreadByte), ⟨past, [], lv⟩)
  | c :: rest, _lv =>
    if inTable tokenChar c then tokenLoop (b ++ [c]) (c :: past) rest true
    else
      match unreadByte ⟨c :: past, rest, true⟩ with
      | some r2 => ((b, none), r2)
      | none => (([], some GoErr.errInvalidUnreadByte), ⟨c :: past, rest, true⟩)

/-- readSimpleString: dispatch on the first byte of a string. -/
def readSimpleString (first : Nat) (r : Reader) : (List Nat × Option GoErr) × Reader :=
  if inTable decimalDigit first then readLengthDelimited first r
  else if first = 35 then readHexFrom r.past r.future
  else if first = 124 then readBase64From r.past r.future
  else if first = 34 then readQuotedString (-1) r
  else if inTable tokenChar first then tokenLoop [first] r.past r.future r.lastValid
  else (([], some GoErr.errCantReadSimpleString), r)

/-- readString: an optional bracketed display hint, then the value.
The source ignores the error of the ReadByte that fetches the first
byte of the value, leaving the byte as zero on end of input. -/
def readString (first : Nat) (r : Reader) : (Option Sexp × Option GoErr) × Reader :=
  if first = 91 then
    match readByte r with
    | (none, r1) => ((none, some GoErr.eof), r1)
    | (some c, r1) =>
      match readSimpleString c r1 with
      | ((_, some e), r2) => ((none, some e), r2)
      | ((displayHint, none), r2) =>
        match readByte r2 with
        | (none, r3) => ((none, some GoErr.eof), r3)
        | (some c2, r3) =>
          if c2 ≠ 93 then ((none, some GoErr.errHintEnd), r3)
          else
            match readByte r3 with
            | (c3, r4) =>
              match readSimpleString (c3.getD 0) r4 with
              | ((str, err), r5) =>
                ((some (.atom (some displayHint) str), err), r5)
  else
    match readSimpleString first r with
    | ((str, err), r1) => ((some (.atom none str), err), r1)

mutual
/-- Read: one S-expression from the reader.  Dispatches on the first
byte: a braced transport form (base64 of a canonical form, re-read
recursively from the decoded bytes, with a leftover inside the
decoded bytes silently dropped by the source), a parenthesised list,
or a string read as an atom. -/
def Read : Nat → Reader → (Option Sexp × Option GoErr) × Reader
  | 0, r => ((none, some GoErr.fuelOut), r)
  | fuel + 1, r =>
    match readByte r with
    | (none, r1) => ((none, some GoErr.eof), r1)
    | (some c, r1) =>
      if c = 123 then
        match readBytesUntil 125 r1 with
        | ((_, some _), r2) => ((none, some GoErr.errTransportRead), r2)
        | ((enc, none), r2) =>
          let acc := enc.dropLast.filter (fun b => !inTable whitespaceChar b)
          match base64Decode acc with
          | none => ((none, some GoErr.errBase64Corrupt), r2)
          | some str =>
            match Read fuel ⟨[], str, false⟩ with
            | ((s, err2), _) =>
              if err2 = none ∨ err2 = some GoErr.eof then ((s, none), r2)
              else ((none, some GoErr.errTransportDecode), r2)
      else if c = 40 then readList fuel [] r1
      else readString c r1

/-- The list loop of Read: skip whitespace, close on a parenthesis,
otherwise unread the byte and read one element.  Go appends the
element interface value even when it is nil (possible only for an
empty transport form); the model cannot hold a nil element and uses
an empty list in that corner. -/
def readList : Nat → List Sexp → Reader → (Option Sexp × Option GoErr) × Reader
  | 0, _, r => ((none, some GoErr.fuelOut), r)
  | fuel + 1, l, r =>
    match readByte r with
    | (c?, r1) =>
      let c := c?.getD 0
      if c = 41 then
        ((some (.list l), if c? = none then some GoErr.eof else none), r1)
      else if inTable whitespaceChar c = false then
        match unreadByte r1 with
        | none => ((none, some GoErr.errUnread), r1)
        | some r2 =>
          match Read fuel r2 with
          | ((_, some e), r3) => ((none, some e), r3)
          | ((element, none), r3) =>
            readList fuel (l ++ [element.getD (.list [])]) r3
      else
        if c? = none then ((none, some GoErr.eof), r1)
        else readList fuel l r1
end

/-- Parse: read the first S-expression of the buffer, swallowing
io.EOF, and hand back the unconsumed remainder. -/
def Parse (s : List Nat) : Option Sexp × List Nat × Option GoErr :=
  match Read (s.length + 1) ⟨[], s, false⟩ with
  | ((sexpr, err), r) =>
    match err with
    | some e => if e ≠ GoErr.eof then (none, [], some e) else (sexpr, r.future, none)
    | none => (sexpr, r.future, none)

/-! ### An abstract decoder for the canonical form.

canonRead is a proof device, not a translation: a parser for exactly
the canonical grammar, with no 32-bit length bound, used to prove that
packing is injective up to Equal for all trees, large ones included. -/

/-- Read one decimal-length-prefixed byte run of the canonical form. -/
def canonSimple (s : List Nat) : Option (List Nat × List Nat) :=
  let ds := s.takeWhile (fun c => inTable decimalDigit c)
  let t := s.dropWhile (fun c => inTable decimalDigit c)
  if ds.isEmpty then none
  else
    match t with
    | 58 :: u =>
      if digitsVal 10 ds ≤ u.length then
        some (u.take (digitsVal 10 ds), u.drop (digitsVal 10 ds))
      else none
    | _ => none

mutual
/-- Read one canonical value: a bracketed hint and a run, a bare run,
or a parenthesised sequence. -/
def canonRead : Nat → List Nat → Option (Sexp × List Nat)
  | 0, _ => none
  | fuel + 1, s =>
    match s with
    | [] => none
    | c :: t =>
      if c = 40 then canonSeq fuel [] t
      else if c = 91 then
        match canonSimple t with
        | none => none
        | some (h, t1) =>
          match t1 with
          | 93 :: t2 =>
            match canonSimple t2 with
            | none => none
            | some (v, t3) => some (.atom (some h) v, t3)
          | _ => none
      else
        match canonSimple (c :: t) with
        | none => none
        | some (v, u) => some (.atom none v, u)

def canonSeq : Nat → List Sexp → List Nat → Option (Sexp × List Nat)
  | 0, _, _ => none
  | fuel + 1, acc, s =>
    match s with
    | [] => none
    | c :: t =>
      if c = 41 then some (.list acc, t)
      else
        match canonRead fuel (c :: t) with
        | none => none
        | some (e, s1) => canonSeq fuel (acc ++ [e]) s1
end

/-! ### Byte-class lemmas. -/

theorem inTable_decimal {c : Nat} : inTable decimalDigit c = true ↔ 48 ≤ c ∧ c ≤ 57 := by
  have h : decimalDigit = [48, 49, 50, 51, 52, 53, 54, 55, 56, 57] := rfl
  simp [inTable, h, List.contains, List.elem_cons]
  omega

theorem notWs_of_digit {c : Nat} (h : 48 ≤ c ∧ c ≤ 57) :
    inTable whitespaceChar c = false := by
  have hw : whitespaceChar = [32, 9, 13, 10] := rfl
  simp [inTable, hw, List.contains, List.elem_cons]
  omega

/-! ### Decimal rendering lemmas. -/

theorem digitsVal_append (base : Nat) (xs : List Nat) (c : Nat) :
    digitsVal base (xs ++ [c]) = digitsVal base xs * base + digVal c := by
  simp [digitsVal, List.foldl_append]

theorem itoaAux_spec :
    ∀ fuel n, n < 10 ^ (fuel + 1) →
      itoaAux (fuel + 1) n ≠ [] ∧
      (∀ c ∈ itoaAux (fuel + 1) n, 48 ≤ c ∧ c ≤ 57) ∧
      digitsVal 10 (itoaAux (fuel + 1) n) = n := by
  intro fuel
  induction fuel with
  | zero =>
    intro n hn
    have h10 : n < 10 := by simpa using hn
    refine ⟨by simp [itoaAux, h10], ?_, ?_⟩
    · simp [itoaAux, h10]; omega
    · simp [itoaAux, h10, digitsVal, digVal]
      omega
  | succ f ih =>
    intro n hn
    by_cases h10 : n < 10
    · refine ⟨by simp [itoaAux, h10], ?_, ?_⟩
      · simp [itoaAux, h10]; omega
      · simp [itoaAux, h10, digitsVal, digVal]
        omega
    · have hdiv : n / 10 < 10 ^ (f + 1) := by
        rw [Nat.div_lt_iff_lt_mul (by norm_num)]
        calc n < 10 ^ (f + 1 + 1) := hn
        _ = 10 ^ (f + 1) * 10 := by ring
      obtain ⟨hne, hdig, hval⟩ := ih (n / 10) hdiv
      have heq : itoaAux (f + 1 + 1) n = itoaAux (f + 1) (n / 10) ++ [48 + n % 10] := by
        simp [itoaAux, h10]
      refine ⟨by simp [heq], ?_, ?_⟩
      · intro c hc
        rw [heq] at hc
        rcases List.mem_append.mp hc with h | h
        · exact hdig c h
        · simp at h
          omega
      · rw [heq, digitsVal_append, hval]
        have : digVal (48 + n % 10) = n % 10 := by
          simp [digVal]
          omega
        rw [this]
        omega

theorem lt_ten_pow (n : Nat) : n < 10 ^ (n + 1) := by
  calc n < n + 1 := Nat.lt_succ_self n
  _ ≤ 10 ^ (n + 1) := Nat.le_of_lt (Nat.lt_pow_self (by norm_num) _)

theorem itoa_ne_nil (n : Nat) : itoa n ≠ [] :=
  (itoaAux_spec n n (lt_ten_pow n)).1

theorem itoa_digits {n : Nat} : ∀ c ∈ itoa n, 48 ≤ c ∧ c ≤ 57 :=
  (itoaAux_spec n n (lt_ten_pow n)).2.1

theorem digitsVal_itoa (n : Nat) : digitsVal 10 (itoa n) = n :=
  (itoaAux_spec n n (lt_ten_pow n)).2.2

theorem parseIntChecked_itoa {n : Nat} (hn : n ≤ maxInt32) :
    parseIntChecked 10 maxInt32 (itoa n) = some n := by
  have hdig : (itoa n).all (fun c => digVal c < 10) = true := by
    rw [List.all_eq_true]
    intro c hc
    have h := itoa_digits c hc
    simp only [decide_eq_true_eq, digVal]
    rw [if_pos h]
    omega
  rw [parseIntChecked, if_pos ⟨itoa_ne_nil n, hdig⟩, digitsVal_itoa, if_pos hn]

/-! ### Structure lemmas for trees. -/

theorem sizeSeq_mem {e : Sexp} {l : List Sexp} (he : e ∈ l) : e.size ≤ sizeSeq l := by
  induction l with
  | nil => cases he
  | cons a as ih =>
    rcases List.mem_cons.mp he with rfl | h
    · simp only [sizeSeq]
      omega
    · have := ih h
      simp only [sizeSeq]
      omega

theorem size_lt_list {e : Sexp} {l : List Sexp} (he : e ∈ l) :
    e.size < Sexp.size (.list l) := by
  have h1 := sizeSeq_mem he
  simp [Sexp.size]
  omega

/-- Strong induction over trees by size, the induction principle used
in place of the nested structural recursor. -/
theorem sexpStrongInd (P : Sexp → Prop)
    (h : ∀ v, (∀ w : Sexp, w.size < v.size → P w) → P v) : ∀ v, P v := by
  have key : ∀ N v, Sexp.size v ≤ N → P v := by
    intro N
    induction N with
    | zero =>
      intro v hv
      exact h v (fun w hw => absurd (Nat.lt_of_lt_of_le hw hv) (by omega))
    | succ n ih =>
      intro v hv
      exact h v (fun w hw => ih w (by omega))
  exact fun v => key v.size v le_rfl

/-- The normal form of an optional display hint. -/
def hnorm (h : Option (List Nat)) : Option (List Nat) :=
  if hintPresent h then some (hintBytes h) else none

theorem norm_atom (h : Option (List Nat)) (v : List Nat) :
    Sexp.norm (.atom h v) = .atom (hnorm h) v := rfl

theorem hintPresent_false_iff {h : Option (List Nat)} :
    hintPresent h = false ↔ hintBytes h = [] := by
  cases h with
  | none => simp [hintPresent, hintBytes]
  | some l => simp [hintPresent, hintBytes, List.isEmpty_iff]

theorem hintPresent_true_iff {h : Option (List Nat)} :
    hintPresent h = true ↔ hintBytes h ≠ [] := by
  cases h with
  | none => simp [hintPresent, hintBytes]
  | some l => simp [hintPresent, hintBytes, List.isEmpty_iff]

theorem hintBytes_hnorm (h : Option (List Nat)) : hintBytes (hnorm h) = hintBytes h := by
  rw [hnorm]
  by_cases hp : hintPresent h = true
  · rw [if_pos hp]
    rfl
  · rw [if_neg hp, hintBytes]
    exact ((hintPresent_false_iff).mp (by simpa using hp)).symm

theorem hintPresent_hnorm (h : Option (List Nat)) :
    hintPresent (hnorm h) = hintPresent h := by
  rw [hnorm]
  by_cases hp : hintPresent h = true
  · rw [if_pos hp, hp]
    have hne := hintPresent_true_iff.mp hp
    simp [hintPresent, List.isEmpty_iff]
    exact hne
  · rw [if_neg hp]
    simp [hintPresent]
    simpa using hp

theorem hnorm_eq_iff {h1 h2 : Option (List Nat)} :
    hnorm h1 = hnorm h2 ↔ hintBytes h1 = hintBytes h2 := by
  constructor
  · intro h
    rw [← hintBytes_hnorm h1, ← hintBytes_hnorm h2, h]
  · intro h
    rw [hnorm, hnorm]
    by_cases hp : hintPresent h1 = true
    · have hp2 : hintPresent h2 = true := by
        rw [hintPresent_true_iff] at hp ⊢
        rw [← h]
        exact hp
      rw [if_pos hp, if_pos hp2, h]
    · have hp1 : hintPresent h1 = false := by simpa using hp
      have hp2 : hintPresent h2 = false := by
        rw [hintPresent_false_iff] at hp1 ⊢
        rw [← h]
        exact hp1
      rw [hp1, hp2]
      simp

theorem hnorm_idem (h : Option (List Nat)) : hnorm (hnorm h) = hnorm h := by
  rw [hnorm_eq_iff]
  exact hintBytes_hnorm h

theorem normSeq_length (l : List Sexp) : (normSeq l).length = l.length := by
  induction l with
  | nil => rfl
  | cons e es ih => simp [normSeq, ih]

theorem normSeq_append (l1 l2 : List Sexp) :
    normSeq (l1 ++ l2) = normSeq l1 ++ normSeq l2 := by
  induction l1 with
  | nil => rfl
  | cons e es ih => simp [normSeq, ih]

/-- Equal decides exactly the equality of normal forms. -/
theorem equal_iff_norm : ∀ a b : Sexp, (Sexp.equal a b = true ↔ a.norm = b.norm) := by
  have main : ∀ a : Sexp, ∀ b, (Sexp.equal a b = true ↔ a.norm = b.norm) := by
    apply sexpStrongInd (fun a => ∀ b, (Sexp.equal a b = true ↔ a.norm = b.norm))
    intro a ih b
    cases a with
    | atom h1 v1 =>
      cases b with
      | atom h2 v2 =>
        rw [Sexp.equal, norm_atom, norm_atom]
        constructor
        · intro he
          simp at he
          rw [Sexp.atom.injEq]
          exact ⟨hnorm_eq_iff.mpr he.1, he.2⟩
        · intro he
          rw [Sexp.atom.injEq] at he
          simp
          exact ⟨hnorm_eq_iff.mp he.1, he.2⟩
      | list l2 => simp [Sexp.equal, Sexp.norm]
    | list l1 =>
      cases b with
      | atom h2 v2 => simp [Sexp.equal, Sexp.norm]
      | list l2 =>
        have seqIff : ∀ l1 : List Sexp, (∀ e ∈ l1, ∀ b1, (Sexp.equal e b1 = true ↔ e.norm = b1.norm)) →
            ∀ l2, (equalSeq l1 l2 = true ↔ normSeq l1 = normSeq l2) := by
          intro l1
          induction l1 with
          | nil =>
            intro _ l2
            cases l2 <;> simp [equalSeq, normSeq]
          | cons e es ihs =>
            intro hel l2
            cases l2 with
            | nil => simp [equalSeq, normSeq]
            | cons f fs =>
              rw [equalSeq]
              simp only [normSeq, List.cons.injEq, Bool.and_eq_true]
              rw [hel e (List.mem_cons_self e es) f,
                ihs (fun x hx => hel x (List.mem_cons_of_mem e hx)) fs]
        rw [Sexp.equal]
        have hseq := seqIff l1 (fun e he => ih e (size_lt_list he)) l2
        by_cases hl : l1.length = l2.length
        · rw [if_neg (by simpa using hl)]
          rw [hseq]
          simp [Sexp.norm]
        · rw [if_pos (by simpa using hl)]
          simp only [Sexp.norm, Sexp.list.injEq]
          constructor
          · intro hfalse
            cases hfalse
          · intro he
            exact absurd (by rw [← normSeq_length l1, ← normSeq_length l2, he]) hl
  exact main

theorem norm_idem : ∀ v : Sexp, v.norm.norm = v.norm := by
  apply sexpStrongInd (fun v => v.norm.norm = v.norm)
  intro v ih
  cases v with
  | atom h1 v1 => rw [norm_atom, norm_atom, hnorm_idem]
  | list l =>
    have seqId : ∀ l1 : List Sexp, (∀ e ∈ l1, e.norm.norm = e.norm) →
        normSeq (normSeq l1) = normSeq l1 := by
      intro l1
      induction l1 with
      | nil => intro _; rfl
      | cons e es ihs =>
        intro hel
        rw [normSeq, normSeq, hel e (List.mem_cons_self e es),
          ihs (fun x hx => hel x (List.mem_cons_of_mem e hx))]
    simp only [Sexp.norm]
    rw [seqId l (fun e he => ih e (size_lt_list he))]

theorem equal_norm_left (v : Sexp) : Sexp.equal v.norm v = true :=
  (equal_iff_norm v.norm v).mpr (norm_idem v)

/-- Packing factors through the normal form. -/
theorem pack_norm : ∀ v : Sexp, v.norm.pack = v.pack := by
  apply sexpStrongInd (fun v => v.norm.pack = v.pack)
  intro v ih
  cases v with
  | atom h1 v1 =>
    rw [norm_atom, Sexp.pack, Sexp.pack, hintPresent_hnorm, hintBytes_hnorm]
  | list l =>
    have seqP : ∀ l1 : List Sexp, (∀ e ∈ l1, e.norm.pack = e.pack) →
        packSeq (normSeq l1) = packSeq l1 := by
      intro l1
      induction l1 with
      | nil => intro _; rfl
      | cons e es ihs =>
        intro hel
        rw [normSeq, packSeq, packSeq, hel e (List.mem_cons_self e es),
          ihs (fun x hx => hel x (List.mem_cons_of_mem e hx))]
    simp only [Sexp.norm, Sexp.pack]
    rw [seqP l (fun e he => ih e (size_lt_list he))]

/-! ### The head byte of a canonical packing. -/

theorem pack_atom_cons (h : Option (List Nat)) (v : List Nat) :
    ∃ d t, Sexp.pack (.atom h v) = d :: t ∧ (d = 91 ∨ (48 ≤ d ∧ d ≤ 57)) := by
  by_cases hp : hintPresent h = true
  · refine ⟨91, itoa (hintBytes h).length ++ [58] ++ hintBytes h ++ [93]
      ++ (itoa v.length ++ [58] ++ v), ?_, Or.inl rfl⟩
    simp [Sexp.pack, hp]
  · obtain ⟨d, ds, hitoa⟩ := List.exists_cons_of_ne_nil (itoa_ne_nil v.length)
    refine ⟨d, ds ++ [58] ++ v, ?_, Or.inr (itoa_digits d (by rw [hitoa]; exact List.mem_cons_self d ds))⟩
    simp [Sexp.pack, hp, hitoa]

theorem pack_cons (v : Sexp) :
    ∃ d t, Sexp.pack v = d :: t ∧ (d = 40 ∨ d = 91 ∨ (48 ≤ d ∧ d ≤ 57)) := by
  cases v with
  | atom h v1 =>
    obtain ⟨d, t, heq, hd⟩ := pack_atom_cons h v1
    exact ⟨d, t, heq, Or.inr hd⟩
  | list l => exact ⟨40, packSeq l ++ [41], by simp [Sexp.pack], Or.inl rfl⟩

theorem pack_length_pos (v : Sexp) : 1 ≤ v.pack.length := by
  obtain ⟨d, t, heq, _⟩ := pack_cons v
  rw [heq]
  simp

/-! ### Walking the digit loop of readLengthDelimited. -/

theorem lengthLoop_digits (ds : List Nat) (hds : ∀ c ∈ ds, 48 ≤ c ∧ c ≤ 57) :
    ∀ acc past tail lv, lengthLoop acc past (ds ++ 58 :: tail) lv =
      lengthLoop (acc ++ ds) (ds.reverse ++ past) (58 :: tail)
        (if ds.isEmpty then lv else true) := by
  induction ds with
  | nil => intro acc past tail lv; simp
  | cons d ds ihd =>
    intro acc past tail lv
    have hd : inTable decimalDigit d = true :=
      inTable_decimal.mpr (hds d (List.mem_cons_self d ds))
    rw [List.cons_append, lengthLoop, if_pos hd,
      ihd (fun c hc => hds c (List.mem_cons_of_mem d hc))]
    simp

theorem lengthLoop_colon (acc past tail : List Nat) (lv : Bool) {L : Nat}
    (hacc : parseIntChecked 10 maxInt32 acc = some L) (hlen : L ≤ tail.length) :
    lengthLoop acc past (58 :: tail) lv =
      ((tail.take L, none), ⟨(tail.take L).reverse ++ 58 :: past, tail.drop L, true⟩) := by
  have h58 : inTable decimalDigit 58 = false := by decide
  rw [lengthLoop]
  simp [h58, hacc, hlen]

theorem parseIntChecked_gt {base maxVal : Nat} {s : List Nat}
    (h : maxVal < digitsVal base s) : parseIntChecked base maxVal s = none := by
  rw [parseIntChecked]
  split
  · rw [if_neg (by omega)]
  · rfl

/-! ### Reading one canonical length-prefixed run. -/

theorem readSimpleString_run {v : List Nat} (hv : v.length ≤ maxInt32) {d : Nat} {ds : List Nat}
    (hitoa : itoa v.length = d :: ds) (past ex : List Nat) (lv : Bool) :
    readSimpleString d ⟨past, ds ++ 58 :: (v ++ ex), lv⟩ =
      ((v, none), ⟨v.reverse ++ 58 :: (ds.reverse ++ past), ex, true⟩) := by
  have hd : 48 ≤ d ∧ d ≤ 57 :=
    itoa_digits d (by rw [hitoa]; exact List.mem_cons_self d ds)
  have hds : ∀ c ∈ ds, 48 ≤ c ∧ c ≤ 57 :=
    fun c hc => itoa_digits c (by rw [hitoa]; exact List.mem_cons_of_mem d hc)
  rw [readSimpleString, if_pos (inTable_decimal.mpr hd), readLengthDelimited]
  show lengthLoop [d] past (ds ++ 58 :: (v ++ ex)) lv = _
  rw [lengthLoop_digits ds hds [d] past (v ++ ex) lv]
  have hparse : parseIntChecked 10 maxInt32 ([d] ++ ds) = some v.length := by
    rw [show [d] ++ ds = itoa v.length from by rw [hitoa]; rfl]
    exact parseIntChecked_itoa hv
  rw [lengthLoop_colon _ _ _ _ hparse (by simp)]
  rw [List.take_left, List.drop_left]

theorem norm_atom_absent {h : Option (List Nat)} (v : List Nat)
    (hp : hintPresent h = false) : Sexp.norm (.atom h v) = .atom none v := by
  rw [norm_atom, hnorm, hp]
  simp

theorem norm_atom_present {h : Option (List Nat)} (v : List Nat)
    (hp : hintPresent h = true) :
    Sexp.norm (.atom h v) = .atom (some (hintBytes h)) v := by
  rw [norm_atom, hnorm, hp]
  simp

/-! ### Reading a packed atom through readString. -/

theorem readString_pack {h : Option (List Nat)} {v : List Nat}
    (hval : v.length ≤ maxInt32) (hhint : (hintBytes h).length ≤ maxInt32)
    (past ex : List Nat) (lv : Bool) {d : Nat} {t : List Nat}
    (hpack : Sexp.pack (.atom h v) = d :: t) :
    ∃ p2, readString d ⟨past, t ++ ex, lv⟩ =
      ((some (Sexp.norm (.atom h v)), none), ⟨p2, ex, true⟩) := by
  by_cases hp : hintPresent h = true
  · obtain ⟨d2, ds2, hitoa2⟩ := List.exists_cons_of_ne_nil (itoa_ne_nil (hintBytes h).length)
    obtain ⟨d3, ds3, hitoa3⟩ := List.exists_cons_of_ne_nil (itoa_ne_nil v.length)
    have hexp : Sexp.pack (.atom h v) =
        91 :: (itoa (hintBytes h).length ++ [58] ++ hintBytes h ++ [93]
          ++ (itoa v.length ++ [58] ++ v)) := by
      simp [Sexp.pack, hp]
    rw [hpack] at hexp
    injection hexp with hd ht
    subst hd
    have ht2 : t ++ ex =
        d2 :: (ds2 ++ 58 :: (hintBytes h
          ++ (93 :: (d3 :: (ds3 ++ 58 :: (v ++ ex)))))) := by
      rw [ht, hitoa2, hitoa3]
      simp
    rw [readString, if_pos rfl, ht2]
    simp only [readByte]
    rw [readSimpleString_run hhint hitoa2 (d2 :: past)
      (93 :: (d3 :: (ds3 ++ 58 :: (v ++ ex)))) true]
    simp only [readByte, Option.getD_some]
    rw [if_neg (by omega)]
    rw [readSimpleString_run hval hitoa3]
    rw [norm_atom_present v hp]
    exact ⟨_, rfl⟩
  · have hp0 : hintPresent h = false := by simpa using hp
    obtain ⟨d1, ds, hitoa⟩ := List.exists_cons_of_ne_nil (itoa_ne_nil v.length)
    have hexp : Sexp.pack (.atom h v) = d1 :: (ds ++ 58 :: v) := by
      simp [Sexp.pack, hp0, hitoa]
    rw [hpack] at hexp
    injection hexp with hd ht
    subst hd
    have hdig : 48 ≤ d ∧ d ≤ 57 :=
      itoa_digits d (by rw [hitoa]; exact List.mem_cons_self d ds)
    have ht2 : t ++ ex = ds ++ 58 :: (v ++ ex) := by
      rw [ht]
      simp
    rw [readString, if_neg (by omega), ht2, readSimpleString_run hval hitoa]
    rw [norm_atom_absent v hp0]
    exact ⟨_, rfl⟩

/-! ### The round trip through Read. -/

/-- A tree parses back from its canonical packing: with enough fuel,
Read on pack v followed by anything returns the normal form of v and
stops exactly at the end of the packing. -/
def ReadsPacked (e : Sexp) : Prop :=
  ∀ f, e.fuelNeed ≤ f → ∀ past ex lv,
    ∃ p2, Read f ⟨past, e.pack ++ ex, lv⟩ =
      ((some e.norm, none), ⟨p2, ex, true⟩)

theorem boundedSeq_mem {l : List Sexp} (hb : boundedSeq l = true) :
    ∀ e ∈ l, Sexp.bounded e = true := by
  induction l with
  | nil => intro e he; cases he
  | cons a as ih =>
    rw [boundedSeq, Bool.and_eq_true] at hb
    intro e he
    rcases List.mem_cons.mp he with rfl | h
    · exact hb.1
    · exact ih hb.2 e h

theorem readList_packSeq (l : List Sexp) (hel : ∀ e ∈ l, ReadsPacked e) :
    ∀ f, fuelNeedSeq l ≤ f → ∀ acc past ex lv,
      ∃ p2, readList f acc ⟨past, packSeq l ++ 41 :: ex, lv⟩ =
        ((some (.list (acc ++ normSeq l)), none), ⟨p2, ex, true⟩) := by
  induction l with
  | nil =>
    intro f hf acc past ex lv
    obtain ⟨f1, rfl⟩ : ∃ f1, f = f1 + 1 := ⟨f - 1, by rw [fuelNeedSeq] at hf; omega⟩
    rw [show packSeq [] ++ 41 :: ex = 41 :: ex from by rw [packSeq]; rfl]
    rw [readList]
    simp only [readByte]
    simp [normSeq]
  | cons e es ih =>
    intro f hf acc past ex lv
    rw [fuelNeedSeq] at hf
    obtain ⟨f1, rfl⟩ : ∃ f1, f = f1 + 1 := ⟨f - 1, by omega⟩
    have hfe : e.fuelNeed ≤ f1 := by omega
    have hfes : fuelNeedSeq es ≤ f1 := by omega
    obtain ⟨d, t, hdt, hd⟩ := pack_cons e
    have hsplit : packSeq (e :: es) ++ 41 :: ex =
        d :: (t ++ (packSeq es ++ 41 :: ex)) := by
      rw [packSeq, hdt]
      simp
    rw [hsplit, readList]
    simp only [readByte, Option.getD_some]
    have hne41 : ¬ d = 41 := by rcases hd with rfl | rfl | h <;> omega
    have hws : inTable whitespaceChar d = false := by
      rcases hd with rfl | rfl | h
      · decide
      · decide
      · exact notWs_of_digit h
    rw [if_neg hne41, if_pos hws]
    simp only [unreadByte]
    rw [if_pos trivial]
    dsimp only
    have hre : ∃ p2, Read f1 ⟨past, d :: (t ++ (packSeq es ++ 41 :: ex)), false⟩ =
        ((some e.norm, none), ⟨p2, packSeq es ++ 41 :: ex, true⟩) := by
      have h3 := hel e (List.mem_cons_self e es) f1 hfe past (packSeq es ++ 41 :: ex) false
      rw [hdt] at h3
      simpa using h3
    obtain ⟨p2, hread⟩ := hre
    rw [hread]
    simp only [Option.getD_some]
    obtain ⟨p3, hrest⟩ := ih (fun x hx => hel x (List.mem_cons_of_mem e hx)) f1 hfes
      (acc ++ [e.norm]) p2 ex true
    rw [hrest]
    rw [normSeq]
    simp

theorem Read_pack : ∀ v : Sexp, Sexp.bounded v = true → ReadsPacked v := by
  apply sexpStrongInd (fun v => Sexp.bounded v = true → ReadsPacked v)
  intro v ih hb
  cases v with
  | atom h v1 =>
    intro f hf past ex lv
    rw [Sexp.bounded, Bool.and_eq_true, decide_eq_true_eq, decide_eq_true_eq] at hb
    rw [Sexp.fuelNeed] at hf
    obtain ⟨f1, rfl⟩ : ∃ f1, f = f1 + 1 := ⟨f - 1, by omega⟩
    obtain ⟨d, t, hdt, hd⟩ := pack_atom_cons h v1
    rw [hdt, List.cons_append, Read]
    simp only [readByte]
    have h123 : ¬ d = 123 := by rcases hd with rfl | hdig <;> omega
    have h40 : ¬ d = 40 := by rcases hd with rfl | hdig <;> omega
    rw [if_neg h123, if_neg h40]
    exact readString_pack hb.1 hb.2 (d :: past) ex true hdt
  | list l =>
    intro f hf past ex lv
    rw [Sexp.bounded] at hb
    rw [Sexp.fuelNeed] at hf
    obtain ⟨f1, rfl⟩ : ∃ f1, f = f1 + 1 := ⟨f - 1, by omega⟩
    have hfl : fuelNeedSeq l ≤ f1 := by omega
    have hsplit : Sexp.pack (.list l) ++ ex = 40 :: (packSeq l ++ 41 :: ex) := by
      rw [Sexp.pack]
      simp
    rw [hsplit, Read]
    simp only [readByte]
    rw [if_pos trivial]
    have hel : ∀ e ∈ l, ReadsPacked e := fun e he =>
      ih e (size_lt_list he) (boundedSeq_mem hb e he)
    obtain ⟨p2, hlist⟩ := readList_packSeq l hel f1 hfl [] (40 :: past) ex true
    rw [hlist]
    rw [show ([] : List Sexp) ++ normSeq l = normSeq l from by simp]
    rw [show Sexp.norm (.list l) = .list (normSeq l) from by rw [Sexp.norm]]
    exact ⟨_, rfl⟩

/-! ### The fuel of the model is covered by the length of the input. -/

theorem fuelNeedSeq_le (l : List Sexp) (hel : ∀ e ∈ l, e.fuelNeed ≤ e.pack.length) :
    fuelNeedSeq l ≤ 1 + (packSeq l).length := by
  induction l with
  | nil =>
    rw [fuelNeedSeq, packSeq]
    simp
  | cons e es ih =>
    have h1 := hel e (List.mem_cons_self e es)
    have h2 := ih (fun x hx => hel x (List.mem_cons_of_mem e hx))
    have h3 := pack_length_pos e
    rw [fuelNeedSeq, packSeq]
    simp only [List.length_append]
    omega

theorem fuelNeed_le_pack_length : ∀ v : Sexp, v.fuelNeed ≤ v.pack.length := by
  apply sexpStrongInd (fun v => v.fuelNeed ≤ v.pack.length)
  intro v ih
  cases v with
  | atom h v1 =>
    rw [Sexp.fuelNeed]
    exact pack_length_pos _
  | list l =>
    have hseq := fuelNeedSeq_le l (fun e he => ih e (size_lt_list he))
    rw [Sexp.fuelNeed, Sexp.pack]
    simp only [List.length_append, List.length_cons]
    simp at hseq ⊢
    omega

/-! ### The abstract canonical decoder recovers the normal form. -/

theorem takeWhile_digits (ds : List Nat) (hds : ∀ c ∈ ds, 48 ≤ c ∧ c ≤ 57) (u : List Nat) :
    (ds ++ 58 :: u).takeWhile (fun c => inTable decimalDigit c) = ds ∧
    (ds ++ 58 :: u).dropWhile (fun c => inTable decimalDigit c) = 58 :: u := by
  induction ds with
  | nil =>
    have h58 : inTable decimalDigit 58 = false := by decide
    constructor
    · simp [List.takeWhile_cons, h58]
    · simp [List.dropWhile_cons, h58]
  | cons d ds ih =>
    have hd : inTable decimalDigit d = true :=
      inTable_decimal.mpr (hds d (List.mem_cons_self d ds))
    obtain ⟨ht, hw⟩ := ih (fun c hc => hds c (List.mem_cons_of_mem d hc))
    constructor
    · simp [List.takeWhile_cons, hd, ht]
    · simp [List.dropWhile_cons, hd, hw]

theorem canonSimple_run (v u : List Nat) :
    canonSimple (itoa v.length ++ 58 :: (v ++ u)) = some (v, u) := by
  obtain ⟨tw, dw⟩ := takeWhile_digits (itoa v.length) itoa_digits (v ++ u)
  rw [canonSimple]
  simp only [tw, dw]
  rw [if_neg (by simp [List.isEmpty_iff, itoa_ne_nil])]
  simp only [digitsVal_itoa]
  rw [if_pos (by simp)]
  rw [List.take_left, List.drop_left]

/-- The canonical decoder reads back the normal form of a packed tree,
for every tree, with no length bound. -/
def CanonReads (e : Sexp) : Prop :=
  ∀ f, e.fuelNeed ≤ f → ∀ ex, canonRead f (e.pack ++ ex) = some (e.norm, ex)

theorem canonSeq_packSeq (l : List Sexp) (hel : ∀ e ∈ l, CanonReads e) :
    ∀ f, fuelNeedSeq l ≤ f → ∀ acc ex,
      canonSeq f acc (packSeq l ++ 41 :: ex) = some (.list (acc ++ normSeq l), ex) := by
  induction l with
  | nil =>
    intro f hf acc ex
    obtain ⟨f1, rfl⟩ : ∃ f1, f = f1 + 1 := ⟨f - 1, by rw [fuelNeedSeq] at hf; omega⟩
    rw [show packSeq [] ++ 41 :: ex = 41 :: ex from by rw [packSeq]; rfl]
    rw [canonSeq]
    simp [normSeq]
  | cons e es ih =>
    intro f hf acc ex
    rw [fuelNeedSeq] at hf
    obtain ⟨f1, rfl⟩ : ∃ f1, f = f1 + 1 := ⟨f - 1, by omega⟩
    have hfe : e.fuelNeed ≤ f1 := by omega
    have hfes : fuelNeedSeq es ≤ f1 := by omega
    obtain ⟨d, t, hdt, hd⟩ := pack_cons e
    have hsplit : packSeq (e :: es) ++ 41 :: ex =
        d :: (t ++ (packSeq es ++ 41 :: ex)) := by
      rw [packSeq, hdt]
      simp
    rw [hsplit, canonSeq]
    have hne41 : ¬ d = 41 := by rcases hd with rfl | rfl | h <;> omega
    rw [if_neg hne41]
    have hre : canonRead f1 (d :: (t ++ (packSeq es ++ 41 :: ex))) =
        some (e.norm, packSeq es ++ 41 :: ex) := by
      have h3 := hel e (List.mem_cons_self e es) f1 hfe (packSeq es ++ 41 :: ex)
      rw [hdt] at h3
      simpa using h3
    rw [hre]
    simp only
    rw [ih (fun x hx => hel x (List.mem_cons_of_mem e hx)) f1 hfes (acc ++ [e.norm]) ex]
    rw [normSeq]
    simp

theorem canonRead_pack : ∀ v : Sexp, CanonReads v := by
  apply sexpStrongInd CanonReads
  intro v ih
  cases v with
  | atom h v1 =>
    intro f hf ex
    rw [Sexp.fuelNeed] at hf
    obtain ⟨f1, rfl⟩ : ∃ f1, f = f1 + 1 := ⟨f - 1, by omega⟩
    by_cases hp : hintPresent h = true
    · have hexp : Sexp.pack (.atom h v1) ++ ex =
          91 :: (itoa (hintBytes h).length ++ 58 :: (hintBytes h
            ++ (93 :: (itoa v1.length ++ 58 :: (v1 ++ ex))))) := by
        simp [Sexp.pack, hp]
      rw [hexp, canonRead]
      rw [if_neg (by omega), if_pos rfl]
      rw [canonSimple_run (hintBytes h) (93 :: (itoa v1.length ++ 58 :: (v1 ++ ex)))]
      simp only
      rw [canonSimple_run v1 ex]
      rw [norm_atom_present v1 hp]
    · have hp0 : hintPresent h = false := by simpa using hp
      obtain ⟨d, ds, hitoa⟩ := List.exists_cons_of_ne_nil (itoa_ne_nil v1.length)
      have hdig : 48 ≤ d ∧ d ≤ 57 :=
        itoa_digits d (by rw [hitoa]; exact List.mem_cons_self d ds)
      have hexp : Sexp.pack (.atom h v1) ++ ex = d :: (ds ++ 58 :: (v1 ++ ex)) := by
        simp [Sexp.pack, hp0, hitoa]
      rw [hexp, canonRead]
      rw [if_neg (by omega), if_neg (by omega)]
      have hrun : canonSimple (d :: (ds ++ 58 :: (v1 ++ ex))) = some (v1, ex) := by
        have h4 := canonSimple_run v1 ex
        rw [hitoa] at h4
        simpa using h4
      rw [hrun]
      rw [norm_atom_absent v1 hp0]
  | list l =>
    intro f hf ex
    rw [Sexp.fuelNeed] at hf
    obtain ⟨f1, rfl⟩ : ∃ f1, f = f1 + 1 := ⟨f - 1, by omega⟩
    have hsplit : Sexp.pack (.list l) ++ ex = 40 :: (packSeq l ++ 41 :: ex) := by
      rw [Sexp.pack]
      simp
    rw [hsplit, canonRead, if_pos rfl]
    rw [canonSeq_packSeq l (fun e he => ih e (size_lt_list he)) f1 (by omega) [] ex]
    rw [show ([] : List Sexp) ++ normSeq l = normSeq l from by simp]
    rw [show Sexp.norm (.list l) = .list (normSeq l) from by rw [Sexp.norm]]

/-! ### The claims. -/

/-- C1 (amended): for every tree whose atom values and display hints
are at most 2147483647 bytes long (the lengths the ParseInt call with
bitSize 32 inside readLengthDelimited can accept), parsing the
canonical packing succeeds with no error, no remainder, and a value
Equal to the original tree. -/
theorem C1_roundtrip_bounded (v : Sexp) (hb : Sexp.bounded v = true) :
    Parse v.pack = (some v.norm, [], none) ∧ Sexp.equal v.norm v = true := by
  have hfuel : v.fuelNeed ≤ v.pack.length + 1 :=
    le_trans (fuelNeed_le_pack_length v) (by omega)
  obtain ⟨p2, hread⟩ := Read_pack v hb (v.pack.length + 1) hfuel [] [] false
  rw [List.append_nil] at hread
  refine ⟨?_, equal_norm_left v⟩
  rw [Parse, hread]

theorem C1_roundtrip_bounded_witness :
    Sexp.bounded (Sexp.list [.atom (some [104]) [97], .atom none []]) = true ∧
    (Parse (Sexp.pack (Sexp.list [.atom (some [104]) [97], .atom none []])) =
      (some (Sexp.norm (Sexp.list [.atom (some [104]) [97], .atom none []])), [], none) ∧
     Sexp.equal (Sexp.norm (Sexp.list [.atom (some [104]) [97], .atom none []]))
       (Sexp.list [.atom (some [104]) [97], .atom none []]) = true) :=
  ⟨by decide, C1_roundtrip_bounded _ (by decide)⟩

/-- Helper for the C1 counterexample: packing any atom of exactly
2147483648 value bytes and parsing it back fails with the ParseInt
error (the declared length does not fit in an int32). -/
theorem parse_pack_overlong (val : List Nat) (hlen : val.length = 2147483648) :
    (Parse (Sexp.pack (Sexp.atom none val))).2.2 = some GoErr.errParseInt := by
  have hito : itoa 2147483648 = [50, 49, 52, 55, 52, 56, 51, 54, 52, 56] := rfl
  have hpack : Sexp.pack (Sexp.atom none val) =
      50 :: ([49, 52, 55, 52, 56, 51, 54, 52, 56] ++ (58 :: val)) := by
    have hbase : Sexp.pack (Sexp.atom none val) =
        itoa val.length ++ [58] ++ val := by
      simp [Sexp.pack, hintPresent]
    rw [hbase, hlen, hito]
    simp
  rw [Parse, hpack]
  simp only [List.length_cons]
  rw [Read]
  simp only [readByte]
  rw [if_neg (by omega), if_neg (by omega)]
  rw [readString, if_neg (by omega)]
  rw [readSimpleString, if_pos (show inTable decimalDigit 50 = true from by decide)]
  rw [readLengthDelimited]
  simp only
  rw [lengthLoop_digits [49, 52, 55, 52, 56, 51, 54, 52, 56] (by decide)]
  rw [lengthLoop]
  have h58 : inTable decimalDigit 58 = false := by decide
  simp only [h58, Bool.false_eq_true, if_false]
  rw [if_pos trivial]
  rw [parseIntChecked_gt (show maxInt32 <
    digitsVal 10 ([50] ++ [49, 52, 55, 52, 56, 51, 54, 52, 56]) from by decide)]
  simp

/-- C1 (counterexample to the claim as stated): an atom of 2147483648
value bytes is a valid tree, but parsing its canonical packing fails
with the range error of strconv.ParseInt at bitSize 32, so
Parse(Pack(v)) does not return a nil error for every valid tree. -/
theorem C1_counterexample :
    (Parse (Sexp.pack (Sexp.atom none (List.replicate 2147483648 97)))).2.2 =
      some GoErr.errParseInt :=
  parse_pack_overlong (List.replicate 2147483648 97) (List.length_replicate ..)

/-- C2: PackedLen does not always equal the length of Pack: for an
atom with a nil display hint and a ten-byte value, PackedLen computes
the digit count of the hint length (one digit, for 0) where the digit
count of the value length (two digits, for 10) is required, giving 12
against a packed length of 13. -/
theorem C2_packedLen_mismatch :
    Sexp.packedLen (.atom none [48, 49, 50, 51, 52, 53, 54, 55, 56, 57]) = 12 ∧
    (Sexp.pack (.atom none [48, 49, 50, 51, 52, 53, 54, 55, 56, 57])).length = 13 := by
  constructor <;> rfl

/-- C3: the advanced rendering of an atom whose value is one backspace
byte is the two characters of an empty quoted string, because the
backspace arm of writeString appends the escape to the wrong
accumulator; that rendering parses back to the empty atom, which is
not Equal to the original. -/
theorem C3_backspace_render_breaks_roundtrip :
    Sexp.stringBuf (.atom none [8]) = [34, 34] ∧
    Parse [34, 34] = (some (.atom none []), [], none) ∧
    Sexp.equal (.atom none []) (.atom none [8]) = false := by
  refine ⟨rfl, rfl, rfl⟩

/-- C4: canonical packing separates trees exactly up to Equal: trees
that are not Equal pack to different byte strings, and Equal trees
pack to identical byte strings. -/
theorem C4_pack_injective_up_to_equal (a b : Sexp) :
    (Sexp.equal a b = false → a.pack ≠ b.pack) ∧
    (Sexp.equal a b = true → a.pack = b.pack) := by
  have key : Sexp.equal a b = true ↔ a.pack = b.pack := by
    constructor
    · intro he
      rw [← pack_norm a, ← pack_norm b, (equal_iff_norm a b).mp he]
    · intro hp
      have ha := canonRead_pack a (max a.fuelNeed b.fuelNeed) (le_max_left _ _) []
      have hbb := canonRead_pack b (max a.fuelNeed b.fuelNeed) (le_max_right _ _) []
      rw [hp] at ha
      rw [hbb] at ha
      have h2 : b.norm = a.norm := by simpa using ha
      exact (equal_iff_norm a b).mpr h2.symm
  constructor
  · intro hfalse hpack
    have ht := key.mpr hpack
    rw [ht] at hfalse
    cases hfalse
  · exact key.mp

theorem C4_pack_injective_up_to_equal_witness :
    Sexp.pack (.atom none [97]) ≠ Sexp.pack (.atom none [98]) :=
  (C4_pack_injective_up_to_equal (.atom none [97]) (.atom none [98])).1 rfl

/-- C5: a transport wrapper whose decoded bytes hold one complete
value followed by an extra byte is accepted: the braces around the
base64 of the three bytes open paren, close paren, letter x parse to
the empty list with a nil error, the leftover decoded byte being
silently dropped by the transport arm of Read. -/
theorem C5_transport_leftover_accepted :
    Parse [123, 75, 67, 108, 52, 125] = (some (.list []), [], none) := rfl

/-- C6: Parse on the eight bytes of the string 7:foobar (declared
length 7, only six value bytes) returns the truncated atom with a nil
error, because Parse swallows the io.EOF with which Read reports the
short read. -/
theorem C6_length_mismatch_no_error :
    Parse [55, 58, 102, 111, 111, 98, 97, 114] =
      (some (.atom none [102, 111, 111, 98, 97, 114]), [], none) := rfl

/-- C7: inside a quoted string, backslash followed by the three octal
digits 101 does not decode to the byte 0x41: the escape state is
overwritten back to the in-quote state, the first digit is lost and
the remaining two digits are taken literally, yielding the two bytes
of the string 01. -/
theorem C7_octal_escape_not_decoded :
    Parse [34, 92, 49, 48, 49, 34] = (some (.atom none [48, 49]), [], none) := rfl

/-- C8: inside a quoted string, backslash x followed by the two hex
digits 61 does not yield the byte 0x61: the second digit is stored in
the third escape slot while the first two slots are parsed, so
ParseInt sees a zero byte and fails, and the parse errors. -/
theorem C8_hex_escape_errors :
    Parse [34, 92, 120, 54, 49, 34] = (none, [], some GoErr.errParseInt) := rfl

/-- C9: an atom with an absent display hint and the same atom with a
present-but-empty display hint pack to identical bytes and are Equal
in both directions. -/
theorem C9_nil_empty_hint_identified (v : List Nat) :
    Sexp.pack (.atom none v) = Sexp.pack (.atom (some []) v) ∧
    Sexp.equal (.atom none v) (.atom (some []) v) = true ∧
    Sexp.equal (.atom (some []) v) (.atom none v) = true := by
  refine ⟨?_, ?_, ?_⟩
  · simp [Sexp.pack, hintPresent, hintBytes]
  · rw [Sexp.equal]
    simp [hintBytes]
  · rw [Sexp.equal]
    simp [hintBytes]

/-- C10: Parse never surfaces io.EOF: its error component is never the
end-of-file error; the empty buffer parses to a nil value, an empty
remainder and a nil error; and whenever Read succeeds cleanly exactly
at the end of the buffer, Parse returns that value with a nil error
and an empty remainder. -/
theorem C10_parse_never_eof :
    (∀ s : List Nat, (Parse s).2.2 ≠ some GoErr.eof) ∧
    Parse [] = (none, [], none) ∧
    (∀ (s : List Nat) (v : Sexp) (r2 : Reader),
      Read (s.length + 1) ⟨[], s, false⟩ = ((some v, none), r2) → r2.future = [] →
      Parse s = (some v, [], none)) := by
  refine ⟨?_, rfl, ?_⟩
  · intro s
    rcases h : Read (s.length + 1) ⟨[], s, false⟩ with ⟨⟨sexpr, err⟩, r⟩
    rw [Parse, h]
    match err with
    | none => simp
    | some e =>
      by_cases he : e = GoErr.eof
      · subst he
        simp
      · simp only [if_pos he]
        simp
        exact he
  · intro s v r2 hread hfut
    rw [Parse, hread]
    simp [hfut]

theorem C10_parse_never_eof_witness :
    Parse [40, 41] = (some (.list []), [], none) :=
  C10_parse_never_eof.2.2 [40, 41] (.list []) ⟨[41, 40], [], true⟩ rfl rfl

end Sexprs
